import Mathlib

/-!
# Verification of the `opinf.pre` transformer framework

A shallow embedding, in exact rational arithmetic, of the data-preprocessing
transformer framework of the `rom-operator-inference-Python3` package
(`opinf.pre`): the `ShiftScaleTransformer`, the composite `TransformerMulti`,
and the standalone `shift` / `scale` helpers.  State matrices are lists of
rows of rationals; the floating-point arrays of the implementation are
modelled by exact rationals, so "equal within floating-point tolerance"
becomes exact equality.
-/

namespace OpInfPre

/-- A state matrix: a list of `n` rows, each row holding the `k` snapshot
values of one state component. -/
abbrev Mat := List (List ℚ)

/-- Modelled from the spec: the error taxonomy of §7 for the transformer
framework (`NotFittedError`, `DimensionMismatchError` — which also covers a
multi-variable partition that does not evenly divide — `DegenerateDataError`,
and `ConfigurationError`). -/
inductive TransformerError where
  | notFitted
  | dimensionMismatch
  | degenerateData
  | configurationError
deriving DecidableEq, Repr

/-- Modelled from the spec: the closed catalog of scaling policies of §4.1:
`standard` (scale `1/std`, shift `-mean/std`), `minmax`, `minmaxsym`,
`maxabs`, `maxabssym`; `"none"/absent` is represented by
`Option ScalingKind`.  The `standard` policy's standard deviation is
computed by `ratSqrt`, the exact rational square root of the variance
(see there for how its rounding models the floating-point value). -/
inductive ScalingKind where
  | standard
  | minmax
  | minmaxsym
  | maxabs
  | maxabssym
deriving DecidableEq, Repr

/-- Mean of a list (junk value `0` on the empty list, which fitting never
feeds to it). -/
def listMean (l : List ℚ) : ℚ := l.sum / l.length

/-- Minimum of a list (junk value `0` on the empty list). -/
def listMin : List ℚ → ℚ
  | [] => 0
  | x :: xs => xs.foldl min x

/-- Maximum of a list (junk value `0` on the empty list). -/
def listMax : List ℚ → ℚ
  | [] => 0
  | x :: xs => xs.foldl max x

/-- All entries of a state matrix, row-major. -/
def matEntries (X : Mat) : List ℚ := X.flatten

/-- Minimum entry of a state matrix. -/
def matMin (X : Mat) : ℚ := listMin (matEntries X)

/-- Maximum entry of a state matrix. -/
def matMax (X : Mat) : ℚ := listMax (matEntries X)

/-- Largest absolute value of the entries of a state matrix. -/
def matMaxAbs (X : Mat) : ℚ := listMax ((matEntries X).map (fun x => |x|))

/-- Mean of all entries of a state matrix. -/
def matMean (X : Mat) : ℚ := listMean (matEntries X)

/-- Apply a function to every entry of a state matrix. -/
def mapEntries (f : ℚ → ℚ) (X : Mat) : Mat := X.map (List.map f)

/-- Square root of a nonnegative rational, by exact integer square roots of
the reduced numerator and denominator: equal to the true square root
whenever both are perfect squares (witnesses use such data), and otherwise a
positive rational approximation standing in for the rounded floating-point
value of the implementation.  It is zero exactly on zero (and on negative
arguments, which the variance it is applied to never produces), so the
degenerate-data test `std = 0` of §7 is exact. -/
def ratSqrt (q : ℚ) : ℚ :=
  (Nat.sqrt q.num.toNat : ℚ) / (Nat.sqrt q.den : ℚ)

/-- Modelled from the spec: §4.1 ScalingPolicy (the Python implementation is
not under `src/`, which holds only documentation).  Computes the affine
`(scale, shift)` pair learned from the data under the given policy, with the
spec's forward map `y = scale * x + shift`.  A zero denominator (range,
max-abs or std — for `standard` the variance is zero iff the std is) is the
degenerate-data condition; an invalid `scale_to` interval (`low < high`
violated) is a configuration error. -/
def fitScaling (sk : ScalingKind) (scale_to : ℚ × ℚ) (X : Mat) :
    Except TransformerError (ℚ × ℚ) :=
  match sk with
  | .standard =>
    let mu := matMean X
    let v := matMean (mapEntries (fun x => (x - mu) * (x - mu)) X)
    if v = 0 then .error .degenerateData
    else
      let s := ratSqrt v
      .ok (1 / s, -(mu / s))
  | .minmax | .minmaxsym =>
    if scale_to.1 < scale_to.2 then
      let mn := matMin X
      let mx := matMax X
      if mx - mn = 0 then .error .degenerateData
      else
        let a := (scale_to.2 - scale_to.1) / (mx - mn)
        .ok (a, scale_to.1 - a * mn)
    else .error .configurationError
  | .maxabs =>
    let m := matMaxAbs X
    if m = 0 then .error .degenerateData else .ok (1 / m, 0)
  | .maxabssym =>
    let mu := matMean X
    let m := matMaxAbs (mapEntries (fun x => x - mu) X)
    if m = 0 then .error .degenerateData else .ok (1 / m, -(mu / m))

/-- Subtract the reference vector `mean` (one entry per row) from every
column: row `i` of the result is row `i` of `X` with `mean[i]` subtracted
from each entry. -/
def centerCols (mean : List ℚ) (X : Mat) : Mat :=
  List.zipWith (fun mu row => row.map (fun x => x - mu)) mean X

/-- Add the reference vector `mean` back to every column: the inverse of
`centerCols`. -/
def uncenterCols (mean : List ℚ) (X : Mat) : Mat :=
  List.zipWith (fun mu row => row.map (fun x => x + mu)) mean X

/-- Apply the affine forward map `y = a * x + b` to every entry. -/
def affineMap (a b : ℚ) (X : Mat) : Mat :=
  X.map (List.map (fun x => a * x + b))

/-- Apply the affine inverse map `x = (y - b) / a` to every entry. -/
def affineInv (a b : ℚ) (X : Mat) : Mat :=
  X.map (List.map (fun y => (y - b) / a))

/-- Multiply every entry by `a` (the linear part of the affine map alone). -/
def scaleRows (a : ℚ) (X : Mat) : Mat :=
  X.map (List.map (fun x => a * x))

/-- The learned parameters of a fitted `ShiftScaleTransformer`: the state
dimension `dim`, the centering vector `mean_` (row-wise means, populated iff
centering is on), and the affine pair `scaleShift = (scale_, shift_)`
(populated iff a scaling policy is configured). -/
structure FitState where
  dim : Nat
  mean_ : List ℚ
  scaleShift : Option (ℚ × ℚ)
deriving DecidableEq, Repr

/-- Modelled from the spec: §4.2 ShiftScaleTransformer (implementation not
under `src/`).  Hyperparameters `centering`, `scaling`, `scale_to` are set at
construction; `fitted` is `none` until `fit_transform` has run. -/
structure ShiftScaleTransformer where
  centering : Bool
  scaling : Option ScalingKind
  scale_to : ℚ × ℚ
  fitted : Option FitState
deriving DecidableEq, Repr

/-- Apply the learned transformation: optional centering, then the optional
affine scaling. -/
def applyFit (centering : Bool) (f : FitState) (X : Mat) : Mat :=
  let X1 := if centering then centerCols f.mean_ X else X
  match f.scaleShift with
  | none => X1
  | some (a, b) => affineMap a b X1

/-- Apply the exact algebraic inverse of `applyFit`, in reverse order:
un-scale, then un-shift. -/
def applyInv (centering : Bool) (f : FitState) (Y : Mat) : Mat :=
  let Y1 := match f.scaleShift with
    | none => Y
    | some (a, b) => affineInv a b Y
  if centering then uncenterCols f.mean_ Y1 else Y1

namespace ShiftScaleTransformer

/-- Modelled from the spec: learning step of `fit_transform` (§4.2): set the
state dimension, compute `mean_` as the row-wise mean if centering, then fit
the scaling policy on the (possibly already centered) data. -/
def fitParams (t : ShiftScaleTransformer) (X : Mat) :
    Except TransformerError FitState :=
  let mean := if t.centering then X.map listMean else []
  let X1 := if t.centering then centerCols mean X else X
  match t.scaling with
  | none => .ok ⟨X.length, mean, none⟩
  | some sk =>
    match fitScaling sk t.scale_to X1 with
    | .error e => .error e
    | .ok ab => .ok ⟨X.length, mean, some ab⟩

/-- Modelled from the spec: `fit_transform` (§4.2): learn the parameters and
immediately apply the transformation, returning the fitted transformer
together with the transformed states. -/
def fit_transform (t : ShiftScaleTransformer) (X : Mat) :
    Except TransformerError (ShiftScaleTransformer × Mat) :=
  match fitParams t X with
  | .error e => .error e
  | .ok f => .ok ({ t with fitted := some f }, applyFit t.centering f X)

/-- Modelled from the spec: `transform` (§4.2): apply the already-learned
centering/scaling; "not fitted" before `fit_transform`, dimension-mismatch if
the row count disagrees with the fitted state dimension. -/
def transform (t : ShiftScaleTransformer) (X : Mat) :
    Except TransformerError Mat :=
  match t.fitted with
  | none => .error .notFitted
  | some f =>
    if X.length = f.dim then .ok (applyFit t.centering f X)
    else .error .dimensionMismatch

/-- Modelled from the spec: `inverse_transform` (§4.2): the exact algebraic
inverse of `transform` (un-scale then un-shift), with the same not-fitted and
dimension checks. -/
def inverse_transform (t : ShiftScaleTransformer) (Y : Mat) :
    Except TransformerError Mat :=
  match t.fitted with
  | none => .error .notFitted
  | some f =>
    if Y.length = f.dim then .ok (applyInv t.centering f Y)
    else .error .dimensionMismatch

/-- Modelled from the spec: `transform_ddts` (§4.2): apply only the linear
part (the scaling factor) to time-derivative data; centering is never applied
to derivatives, and without scaling this is the identity. -/
def transform_ddts (t : ShiftScaleTransformer) (D : Mat) :
    Except TransformerError Mat :=
  match t.fitted with
  | none => .error .notFitted
  | some f =>
    if D.length = f.dim then
      .ok (match f.scaleShift with
        | none => D
        | some (a, _) => scaleRows a D)
    else .error .dimensionMismatch

/-- The fitted state dimension (`none` before fitting). -/
def state_dimension (t : ShiftScaleTransformer) : Option Nat :=
  t.fitted.map FitState.dim

end ShiftScaleTransformer

/-- Modelled from the spec: the standalone `opinf.pre.shift` function shown
in the module listing of `src/docs/source/api/pre.ipynb` (implementation not
under `src/`): shift the snapshots by the average snapshot, returning the
shifted array and the reference vector. -/
def shift (X : Mat) : Mat × List ℚ :=
  let mean := X.map listMean
  (centerCols mean X, mean)

/-- Modelled from the spec: the standalone `opinf.pre.scale` function shown
in the module listing and the `opinf.pre.scale(pressure_shifted,
scale_to=(0, 1e-2))` call of `src/docs/source/api/pre.ipynb` (implementation
not under `src/`): min-max scaling of the data to the `scale_to` interval per
§4.1, returning the scaled array together with the learned affine
`(scale, shift)` parameters. -/
def scale (X : Mat) (scale_to : ℚ × ℚ) :
    Except TransformerError (Mat × ℚ × ℚ) :=
  match fitScaling .minmax scale_to X with
  | .error e => .error e
  | .ok ab => .ok (affineMap ab.1 ab.2 X, ab.1, ab.2)

/-- Split a list into consecutive blocks of the given lengths (rows of a
joint state matrix into per-variable segments). -/
def splitByDims {α : Type} : List Nat → List α → List (List α)
  | [], _ => []
  | d :: ds, l => l.take d :: splitByDims ds (l.drop d)

/-- Modelled from the spec: §4.4 TransformerMulti (implementation not under
`src/`): an ordered sequence of named child transformers, each owning a
contiguous row-range of the joint state. -/
structure TransformerMulti where
  transformers : List ShiftScaleTransformer
  variable_names : List String
deriving DecidableEq, Repr

namespace TransformerMulti

/-- The fitted state dimensions of a list of child transformers, `none` if
any child is not yet fitted. -/
def dimsOf : List ShiftScaleTransformer → Option (List Nat)
  | [] => some []
  | c :: cs =>
    match c.state_dimension, dimsOf cs with
    | some d, some ds => some (d :: ds)
    | _, _ => none

/-- Fit each child transformer on its block, collecting the fitted children
and the transformed blocks. -/
def fitChildren : List ShiftScaleTransformer → List Mat →
    Except TransformerError (List (ShiftScaleTransformer × Mat))
  | [], _ => .ok []
  | _ :: _, [] => .error .dimensionMismatch
  | c :: cs, b :: bs =>
    match c.fit_transform b with
    | .error e => .error e
    | .ok cy =>
      match fitChildren cs bs with
      | .error e => .error e
      | .ok rest => .ok (cy :: rest)

/-- Apply a per-child operation to the per-child blocks, collecting results
or the first error. -/
def applyChildren
    (op : ShiftScaleTransformer → Mat → Except TransformerError Mat) :
    List ShiftScaleTransformer → List Mat →
    Except TransformerError (List Mat)
  | [], _ => .ok []
  | _ :: _, [] => .error .dimensionMismatch
  | c :: cs, b :: bs =>
    match op c b with
    | .error e => .error e
    | .ok y =>
      match applyChildren op cs bs with
      | .error e => .error e
      | .ok rest => .ok (y :: rest)

/-- Modelled from the spec: `TransformerMulti.fit_transform` (§4.4) with
implicit equal partitioning: validate the configuration (nonempty child list,
unique variable names matching the child count), fail with a
dimension-mismatch condition if the row count is not evenly divisible by the
number of variables, then split into contiguous equal row-blocks, fit each
child on its block, and re-stack the results in order. -/
def fit_transform (tm : TransformerMulti) (X : Mat) :
    Except TransformerError (TransformerMulti × Mat) :=
  let m := tm.transformers.length
  if m = 0 ∨ tm.variable_names.length ≠ m ∨ ¬ tm.variable_names.Nodup then
    .error .configurationError
  else if X.length % m = 0 then
    match fitChildren tm.transformers
        (splitByDims (List.replicate m (X.length / m)) X) with
    | .error e => .error e
    | .ok rs =>
      .ok ({ tm with transformers := rs.map Prod.fst },
           (rs.map Prod.snd).flatten)
  else .error .dimensionMismatch

/-- Modelled from the spec: `TransformerMulti.transform` (§4.4):
split-delegate-restack using the already-fitted children. -/
def transform (tm : TransformerMulti) (X : Mat) :
    Except TransformerError Mat :=
  match dimsOf tm.transformers with
  | none => .error .notFitted
  | some ds =>
    if X.length = ds.sum then
      match applyChildren ShiftScaleTransformer.transform tm.transformers
          (splitByDims ds X) with
      | .error e => .error e
      | .ok ys => .ok ys.flatten
    else .error .dimensionMismatch

/-- Modelled from the spec: `TransformerMulti.inverse_transform` (§4.4):
split-delegate-restack through the children's inverses. -/
def inverse_transform (tm : TransformerMulti) (Y : Mat) :
    Except TransformerError Mat :=
  match dimsOf tm.transformers with
  | none => .error .notFitted
  | some ds =>
    if Y.length = ds.sum then
      match applyChildren ShiftScaleTransformer.inverse_transform
          tm.transformers (splitByDims ds Y) with
      | .error e => .error e
      | .ok ys => .ok ys.flatten
    else .error .dimensionMismatch

/-- Modelled from the spec: `TransformerMulti.transform_ddts` (§4.4):
delegate the derivative transform per child. -/
def transform_ddts (tm : TransformerMulti) (D : Mat) :
    Except TransformerError Mat :=
  match dimsOf tm.transformers with
  | none => .error .notFitted
  | some ds =>
    if D.length = ds.sum then
      match applyChildren ShiftScaleTransformer.transform_ddts
          tm.transformers (splitByDims ds D) with
      | .error e => .error e
      | .ok ys => .ok ys.flatten
    else .error .dimensionMismatch

/-- Modelled from the spec: `TransformerMulti.get_var` (§4.4): the row-block
of a given array belonging to the indexed variable — pure indexing, no
transformation (junk `[]` before fitting). -/
def get_var (tm : TransformerMulti) (i : Nat) (X : Mat) : Mat :=
  match dimsOf tm.transformers with
  | none => []
  | some ds => (splitByDims ds X).getD i []

/-- `get_var` addressed by variable name instead of index. -/
def get_var_named (tm : TransformerMulti) (name : String) (X : Mat) : Mat :=
  get_var tm (tm.variable_names.indexOf name) X

/-- The joint fitted state dimension: the sum of the children's fitted
dimensions (`none` before fitting). -/
def state_dimension (tm : TransformerMulti) : Option Nat :=
  (dimsOf tm.transformers).map List.sum

end TransformerMulti

/-- A fitted transformer whose `transform` is exactly inverted by
`inverse_transform` (with the output row count preserved): the central
correctness property of the framework. -/
def InvertibleFit (t : ShiftScaleTransformer) : Prop :=
  ∀ X Y : Mat, t.transform X = .ok Y →
    Y.length = X.length ∧ t.inverse_transform Y = .ok X

/-! ## Basic facts about the list statistics -/

theorem foldl_min_le_init (l : List ℚ) : ∀ a : ℚ, l.foldl min a ≤ a := by
  induction l with
  | nil => intro a; simp
  | cons x xs ih => intro a; exact le_trans (ih (min a x)) (min_le_left a x)

theorem foldl_min_le_mem (l : List ℚ) : ∀ a x : ℚ, x ∈ l → l.foldl min a ≤ x := by
  induction l with
  | nil => intro a x hx; cases hx
  | cons y ys ih =>
    intro a x hx
    rcases List.mem_cons.mp hx with h | h
    · subst h
      exact le_trans (foldl_min_le_init ys (min a x)) (min_le_right a x)
    · exact ih (min a y) x h

theorem listMin_le (l : List ℚ) (x : ℚ) (hx : x ∈ l) : listMin l ≤ x := by
  cases l with
  | nil => cases hx
  | cons y ys =>
    rcases List.mem_cons.mp hx with h | h
    · subst h; exact foldl_min_le_init ys x
    · exact foldl_min_le_mem ys y x h

theorem init_le_foldl_max (l : List ℚ) : ∀ a : ℚ, a ≤ l.foldl max a := by
  induction l with
  | nil => intro a; simp
  | cons x xs ih => intro a; exact le_trans (le_max_left a x) (ih (max a x))

theorem mem_le_foldl_max (l : List ℚ) : ∀ a x : ℚ, x ∈ l → x ≤ l.foldl max a := by
  induction l with
  | nil => intro a x hx; cases hx
  | cons y ys ih =>
    intro a x hx
    rcases List.mem_cons.mp hx with h | h
    · subst h
      exact le_trans (le_max_right a x) (init_le_foldl_max ys (max a x))
    · exact ih (max a y) x h

theorem le_listMax (l : List ℚ) (x : ℚ) (hx : x ∈ l) : x ≤ listMax l := by
  cases l with
  | nil => cases hx
  | cons y ys =>
    rcases List.mem_cons.mp hx with h | h
    · subst h; exact init_le_foldl_max ys x
    · exact mem_le_foldl_max ys y x h

theorem foldl_min_mem (l : List ℚ) : ∀ a : ℚ, l.foldl min a ∈ a :: l := by
  induction l with
  | nil => intro a; simp
  | cons x xs ih =>
    intro a
    simp only [List.foldl_cons, List.mem_cons]
    rcases List.mem_cons.mp (ih (min a x)) with h | h
    · rcases min_choice a x with hc | hc
      · exact Or.inl (h.trans hc)
      · exact Or.inr (Or.inl (h.trans hc))
    · exact Or.inr (Or.inr h)

theorem listMin_mem (l : List ℚ) (hl : l ≠ []) : listMin l ∈ l := by
  cases l with
  | nil => exact absurd rfl hl
  | cons y ys => exact foldl_min_mem ys y

theorem foldl_max_mem (l : List ℚ) : ∀ a : ℚ, l.foldl max a ∈ a :: l := by
  induction l with
  | nil => intro a; simp
  | cons x xs ih =>
    intro a
    simp only [List.foldl_cons, List.mem_cons]
    rcases List.mem_cons.mp (ih (max a x)) with h | h
    · rcases max_choice a x with hc | hc
      · exact Or.inl (h.trans hc)
      · exact Or.inr (Or.inl (h.trans hc))
    · exact Or.inr (Or.inr h)

theorem listMax_mem (l : List ℚ) (hl : l ≠ []) : listMax l ∈ l := by
  cases l with
  | nil => exact absurd rfl hl
  | cons y ys => exact foldl_max_mem ys y

theorem foldl_min_map (f : ℚ → ℚ) (hf : ∀ p q, f (min p q) = min (f p) (f q))
    (l : List ℚ) : ∀ a, (l.map f).foldl min (f a) = f (l.foldl min a) := by
  induction l with
  | nil => intro a; rfl
  | cons x xs ih =>
    intro a
    simp only [List.map_cons, List.foldl_cons, ← hf]
    exact ih (min a x)

theorem listMin_map_mono (f : ℚ → ℚ) (hf : ∀ p q, f (min p q) = min (f p) (f q))
    (l : List ℚ) (hl : l ≠ []) : listMin (l.map f) = f (listMin l) := by
  cases l with
  | nil => exact absurd rfl hl
  | cons x xs => exact foldl_min_map f hf xs x

theorem foldl_max_map (f : ℚ → ℚ) (hf : ∀ p q, f (max p q) = max (f p) (f q))
    (l : List ℚ) : ∀ a, (l.map f).foldl max (f a) = f (l.foldl max a) := by
  induction l with
  | nil => intro a; rfl
  | cons x xs ih =>
    intro a
    simp only [List.map_cons, List.foldl_cons, ← hf]
    exact ih (max a x)

theorem listMax_map_mono (f : ℚ → ℚ) (hf : ∀ p q, f (max p q) = max (f p) (f q))
    (l : List ℚ) (hl : l ≠ []) : listMax (l.map f) = f (listMax l) := by
  cases l with
  | nil => exact absurd rfl hl
  | cons x xs => exact foldl_max_map f hf xs x

theorem listSum_const (c : ℚ) : ∀ l : List ℚ, (∀ x ∈ l, x = c) →
    l.sum = c * l.length := by
  intro l
  induction l with
  | nil => intro _; simp
  | cons x xs ih =>
    intro h
    have hx : x = c := h x (List.mem_cons_self x xs)
    have hs : xs.sum = c * xs.length := ih fun y hy => h y (List.mem_cons_of_mem x hy)
    simp only [List.sum_cons, List.length_cons, hx, hs]
    push_cast
    ring

theorem listMean_const (c : ℚ) (l : List ℚ) (hl : l ≠ []) (h : ∀ x ∈ l, x = c) :
    listMean l = c := by
  have h0 : l.length ≠ 0 := fun hh => hl (List.length_eq_zero.mp hh)
  have hlen : (l.length : ℚ) ≠ 0 := Nat.cast_ne_zero.mpr h0
  rw [listMean, listSum_const c l h, mul_div_assoc, div_self hlen, mul_one]

theorem listMin_const (c : ℚ) (l : List ℚ) (hl : l ≠ []) (h : ∀ x ∈ l, x = c) :
    listMin l = c := h _ (listMin_mem l hl)

theorem listMax_const (c : ℚ) (l : List ℚ) (hl : l ≠ []) (h : ∀ x ∈ l, x = c) :
    listMax l = c := h _ (listMax_mem l hl)

/-! ## Entry-level views of the matrix operations -/

theorem matEntries_mapEntries (f : ℚ → ℚ) (X : Mat) :
    matEntries (mapEntries f X) = (matEntries X).map f := by
  simp [matEntries, mapEntries, List.map_flatten]

theorem affineMap_eq_mapEntries (a b : ℚ) (X : Mat) :
    affineMap a b X = mapEntries (fun x => a * x + b) X := rfl

theorem scaleRows_eq_mapEntries (a : ℚ) (X : Mat) :
    scaleRows a X = mapEntries (fun x => a * x) X := rfl

theorem matEntries_ne_nil_mapEntries (f : ℚ → ℚ) (X : Mat)
    (hX : matEntries X ≠ []) : matEntries (mapEntries f X) ≠ [] := by
  rw [matEntries_mapEntries]
  simpa [List.map_eq_nil_iff] using hX

theorem map_sub_add (mu : ℚ) (r : List ℚ) :
    (r.map (fun x => x - mu)).map (fun x => x + mu) = r := by
  induction r with
  | nil => rfl
  | cons x xs ih => simp [ih]

theorem map_affine_inv (a b : ℚ) (ha : a ≠ 0) (r : List ℚ) :
    (r.map (fun x => a * x + b)).map (fun y => (y - b) / a) = r := by
  induction r with
  | nil => rfl
  | cons x xs ih =>
    simp only [List.map_cons, ih, List.cons.injEq, and_true]
    field_simp

theorem affineInv_affineMap (a b : ℚ) (ha : a ≠ 0) (X : Mat) :
    affineInv a b (affineMap a b X) = X := by
  unfold affineInv affineMap
  rw [List.map_map]
  induction X with
  | nil => rfl
  | cons r rs ih =>
    simp only [List.map_cons, ih, List.cons.injEq, and_true, Function.comp]
    exact map_affine_inv a b ha r

theorem uncenterCols_centerCols : ∀ (mu : List ℚ) (X : Mat),
    mu.length = X.length → uncenterCols mu (centerCols mu X) = X := by
  intro mu
  induction mu with
  | nil =>
    intro X h
    cases X with
    | nil => rfl
    | cons r rs => simp at h
  | cons m ms ih =>
    intro X h
    cases X with
    | nil => simp at h
    | cons r rs =>
      simp only [centerCols, uncenterCols, List.zipWith_cons_cons] at *
      rw [map_sub_add m r]
      have := ih rs (by simpa using h)
      simp only [centerCols, uncenterCols] at this
      rw [this]

theorem length_centerCols (mu : List ℚ) (X : Mat) (h : mu.length = X.length) :
    (centerCols mu X).length = X.length := by
  simp [centerCols, List.length_zipWith, h]

theorem length_affineMap (a b : ℚ) (X : Mat) :
    (affineMap a b X).length = X.length := by
  simp [affineMap]

theorem length_applyFit (c : Bool) (f : FitState) (X : Mat)
    (hmu : c = true → f.mean_.length = X.length) :
    (applyFit c f X).length = X.length := by
  unfold applyFit
  cases hss : f.scaleShift with
  | none =>
    cases c with
    | false => simp
    | true => simpa using length_centerCols f.mean_ X (hmu rfl)
  | some ab =>
    cases c with
    | false => simp [length_affineMap]
    | true =>
      simp only [if_true]
      rw [length_affineMap, length_centerCols f.mean_ X (hmu rfl)]

theorem applyInv_applyFit (c : Bool) (f : FitState) (X : Mat)
    (hmu : c = true → f.mean_.length = X.length)
    (ha : ∀ a b, f.scaleShift = some (a, b) → a ≠ 0) :
    applyInv c f (applyFit c f X) = X := by
  unfold applyInv applyFit
  cases hss : f.scaleShift with
  | none =>
    cases c with
    | false => rfl
    | true => simpa using uncenterCols_centerCols f.mean_ X (hmu rfl)
  | some ab =>
    obtain ⟨a, b⟩ := ab
    have ha' : a ≠ 0 := ha a b hss
    cases c with
    | false => simpa using affineInv_affineMap a b ha' X
    | true =>
      simp only [if_true]
      rw [affineInv_affineMap a b ha', uncenterCols_centerCols f.mean_ X (hmu rfl)]

/-! ## Properties of the learned scaling parameters -/

theorem ratSqrt_pos (q : ℚ) (hq : 0 < q) : 0 < ratSqrt q := by
  unfold ratSqrt
  have hnum : 0 < q.num := Rat.num_pos.mpr hq
  have hn : 0 < Nat.sqrt q.num.toNat := by
    rw [Nat.sqrt_pos]
    omega
  have hd : 0 < Nat.sqrt q.den := by
    rw [Nat.sqrt_pos]
    exact q.pos
  exact div_pos (by exact_mod_cast hn) (by exact_mod_cast hd)

theorem ratSqrt_one : ratSqrt 1 = 1 := by
  norm_num [ratSqrt]

theorem matMean_sq_nonneg (mu : ℚ) (X : Mat) :
    0 ≤ matMean (mapEntries (fun x => (x - mu) * (x - mu)) X) := by
  unfold matMean listMean
  apply div_nonneg
  · apply List.sum_nonneg
    intro y hy
    rw [matEntries_mapEntries] at hy
    simp only [List.mem_map] at hy
    obtain ⟨x, _, hxy⟩ := hy
    rw [← hxy]
    exact mul_self_nonneg _
  · positivity

theorem fitScaling_scale_ne_zero (sk : ScalingKind) (st : ℚ × ℚ) (X : Mat)
    (a b : ℚ) (h : fitScaling sk st X = .ok (a, b)) : a ≠ 0 := by
  cases sk with
  | standard =>
    simp only [fitScaling] at h
    split_ifs at h with h1
    simp only [Except.ok.injEq, Prod.mk.injEq] at h
    obtain ⟨ha, _⟩ := h
    subst ha
    have hv : 0 < matMean
        (mapEntries (fun x => (x - matMean X) * (x - matMean X)) X) :=
      lt_of_le_of_ne (matMean_sq_nonneg (matMean X) X) (Ne.symm h1)
    exact one_div_ne_zero (ne_of_gt (ratSqrt_pos _ hv))
  | minmax =>
    simp only [fitScaling] at h
    split_ifs at h with h1 h2
    simp only [Except.ok.injEq, Prod.mk.injEq] at h
    obtain ⟨ha, _⟩ := h
    subst ha
    exact div_ne_zero (sub_ne_zero.mpr (ne_of_gt h1)) h2
  | minmaxsym =>
    simp only [fitScaling] at h
    split_ifs at h with h1 h2
    simp only [Except.ok.injEq, Prod.mk.injEq] at h
    obtain ⟨ha, _⟩ := h
    subst ha
    exact div_ne_zero (sub_ne_zero.mpr (ne_of_gt h1)) h2
  | maxabs =>
    simp only [fitScaling] at h
    split_ifs at h with h1
    simp only [Except.ok.injEq, Prod.mk.injEq] at h
    obtain ⟨ha, _⟩ := h
    subst ha
    exact one_div_ne_zero h1
  | maxabssym =>
    simp only [fitScaling] at h
    split_ifs at h with h1
    simp only [Except.ok.injEq, Prod.mk.injEq] at h
    obtain ⟨ha, _⟩ := h
    subst ha
    exact one_div_ne_zero h1

theorem fitParams_ok_spec (t0 : ShiftScaleTransformer) (X : Mat) (f : FitState)
    (h : ShiftScaleTransformer.fitParams t0 X = .ok f) :
    f.dim = X.length ∧
    f.mean_ = (if t0.centering then X.map listMean else []) ∧
    (t0.centering = true → f.mean_.length = X.length) ∧
    (∀ a b, f.scaleShift = some (a, b) → a ≠ 0) := by
  unfold ShiftScaleTransformer.fitParams at h
  cases hsc : t0.scaling with
  | none =>
    rw [hsc] at h
    simp only [Except.ok.injEq] at h
    subst h
    refine ⟨rfl, rfl, fun hc => ?_, fun a b hab => by simp at hab⟩
    simp [hc]
  | some sk =>
    simp only [hsc] at h
    split at h
    · simp at h
    · rename_i ab hfs
      simp only [Except.ok.injEq] at h
      subst h
      refine ⟨rfl, rfl, fun hc => by simp [hc], fun a b hab => ?_⟩
      simp only [Option.some.injEq] at hab
      subst hab
      exact fitScaling_scale_ne_zero sk t0.scale_to _ a b hfs

theorem fit_transform_ok_spec (t0 : ShiftScaleTransformer) (X : Mat)
    (t : ShiftScaleTransformer) (Y : Mat)
    (h : ShiftScaleTransformer.fit_transform t0 X = .ok (t, Y)) :
    ∃ f : FitState,
      t = { t0 with fitted := some f } ∧ Y = applyFit t0.centering f X ∧
      f.dim = X.length ∧ (t0.centering = true → f.mean_.length = X.length) ∧
      (∀ a b, f.scaleShift = some (a, b) → a ≠ 0) := by
  unfold ShiftScaleTransformer.fit_transform at h
  cases hfp : ShiftScaleTransformer.fitParams t0 X with
  | error e => rw [hfp] at h; simp at h
  | ok f =>
    rw [hfp] at h
    simp only [Except.ok.injEq, Prod.mk.injEq] at h
    obtain ⟨ht, hY⟩ := h
    obtain ⟨h1, _, h3, h4⟩ := fitParams_ok_spec t0 X f hfp
    exact ⟨f, ht.symm, hY.symm, h1, h3, h4⟩

theorem transform_inverse_of_wf (t : ShiftScaleTransformer) (f : FitState)
    (hf : t.fitted = some f)
    (hmu : t.centering = true → f.mean_.length = f.dim)
    (ha : ∀ a b, f.scaleShift = some (a, b) → a ≠ 0) :
    InvertibleFit t := by
  intro X Y h
  simp only [ShiftScaleTransformer.transform, hf] at h
  by_cases hdim : X.length = f.dim
  · rw [if_pos hdim] at h
    simp only [Except.ok.injEq] at h
    subst h
    have hmu' : t.centering = true → f.mean_.length = X.length := by
      intro hc; rw [hmu hc, hdim]
    have hlen : (applyFit t.centering f X).length = X.length :=
      length_applyFit t.centering f X hmu'
    refine ⟨hlen, ?_⟩
    simp only [ShiftScaleTransformer.inverse_transform, hf]
    rw [if_pos (by rw [hlen, hdim])]
    rw [applyInv_applyFit t.centering f X hmu' ha]
  · rw [if_neg hdim] at h
    simp at h

theorem fit_transform_invertible (t0 : ShiftScaleTransformer) (X : Mat)
    (t : ShiftScaleTransformer) (Y : Mat)
    (h : ShiftScaleTransformer.fit_transform t0 X = .ok (t, Y)) :
    InvertibleFit t ∧ t.transform X = .ok Y ∧ Y.length = X.length ∧
    t.inverse_transform Y = .ok X ∧ t.state_dimension = some X.length := by
  obtain ⟨f, ht, hY, hdim, hmu, ha⟩ := fit_transform_ok_spec t0 X t Y h
  have hf : t.fitted = some f := by rw [ht]
  have hc : t.centering = t0.centering := by rw [ht]
  have hinv : InvertibleFit t := by
    refine transform_inverse_of_wf t f hf ?_ ha
    intro hcen
    rw [hmu (hc ▸ hcen), hdim]
  have htr : t.transform X = .ok Y := by
    simp only [ShiftScaleTransformer.transform, hf]
    rw [if_pos hdim.symm, hY, hc]
  obtain ⟨hlen, hinvY⟩ := hinv X Y htr
  exact ⟨hinv, htr, hlen, hinvY, by
    simp only [ShiftScaleTransformer.state_dimension, hf, Option.map_some', hdim]⟩

/-! ## Splitting a joint state into per-variable blocks -/

theorem length_splitByDims {α : Type} : ∀ (ds : List Nat) (l : List α),
    (splitByDims ds l).length = ds.length := by
  intro ds
  induction ds with
  | nil => intro l; rfl
  | cons d ds ih => intro l; simp [splitByDims, ih]

theorem splitByDims_map_length {α : Type} : ∀ (ds : List Nat) (l : List α),
    ds.sum ≤ l.length → (splitByDims ds l).map List.length = ds := by
  intro ds
  induction ds with
  | nil => intro l _; rfl
  | cons d ds ih =>
    intro l h
    simp only [List.sum_cons] at h
    have h1 : d ≤ l.length := by omega
    have h2 : ds.sum ≤ (l.drop d).length := by
      rw [List.length_drop]; omega
    simp [splitByDims, List.length_take, min_eq_left h1, ih _ h2]

theorem flatten_splitByDims {α : Type} : ∀ (ds : List Nat) (l : List α),
    ds.sum = l.length → (splitByDims ds l).flatten = l := by
  intro ds
  induction ds with
  | nil =>
    intro l h
    simp only [List.sum_nil] at h
    rw [splitByDims, List.flatten_nil, List.length_eq_zero.mp h.symm]
  | cons d ds ih =>
    intro l h
    simp only [List.sum_cons] at h
    simp only [splitByDims, List.flatten_cons]
    rw [ih (l.drop d) (by rw [List.length_drop]; omega), List.take_append_drop]

theorem splitByDims_flatten {α : Type} : ∀ (bs : List (List α)) (ds : List Nat),
    bs.map List.length = ds → splitByDims ds bs.flatten = bs := by
  intro bs
  induction bs with
  | nil =>
    intro ds h
    rw [← h]
    rfl
  | cons b bs ih =>
    intro ds h
    rw [← h]
    simp only [List.map_cons, splitByDims, List.flatten_cons]
    rw [List.take_left, List.drop_left, ih _ rfl]

theorem range_map_getD {α : Type} (d : α) : ∀ l : List α,
    (List.range l.length).map (fun i => l.getD i d) = l := by
  intro l
  induction l with
  | nil => rfl
  | cons x xs ih =>
    rw [List.length_cons, List.range_succ_eq_map]
    simp only [List.map_cons, List.map_map]
    have hcomp : ((fun i => (x :: xs).getD i d) ∘ Nat.succ) =
        fun i => xs.getD i d := rfl
    rw [hcomp, ih]
    rfl

/-! ## Composite transformer: per-child delegation -/

theorem dimsOf_length : ∀ (cs : List ShiftScaleTransformer) (ds : List Nat),
    TransformerMulti.dimsOf cs = some ds → ds.length = cs.length := by
  intro cs
  induction cs with
  | nil =>
    intro ds h
    simp only [TransformerMulti.dimsOf, Option.some.injEq] at h
    rw [← h]
    rfl
  | cons c cs ih =>
    intro ds h
    unfold TransformerMulti.dimsOf at h
    split at h
    · rename_i d ds' hd hds
      simp only [Option.some.injEq] at h
      rw [← h, List.length_cons, List.length_cons, ih ds' hds]
    · simp at h

theorem dimsOf_eq_none (cs : List ShiftScaleTransformer)
    (c : ShiftScaleTransformer) (hc : c ∈ cs) (h : c.fitted = none) :
    TransformerMulti.dimsOf cs = none := by
  induction cs with
  | nil => cases hc
  | cons c' cs ih =>
    rcases List.mem_cons.mp hc with h' | h'
    · subst h'
      cases hds : TransformerMulti.dimsOf cs <;>
        simp [TransformerMulti.dimsOf, ShiftScaleTransformer.state_dimension,
          h, hds]
    · cases hsd : c'.state_dimension <;>
        simp [TransformerMulti.dimsOf, hsd, ih h']

theorem fitChildren_spec : ∀ (cs : List ShiftScaleTransformer) (bs : List Mat)
    (rs : List (ShiftScaleTransformer × Mat)),
    TransformerMulti.fitChildren cs bs = .ok rs → bs.length = cs.length →
    TransformerMulti.dimsOf (rs.map Prod.fst) = some (bs.map List.length) ∧
    (rs.map Prod.snd).map List.length = bs.map List.length ∧
    (∀ c ∈ rs.map Prod.fst, InvertibleFit c) ∧
    TransformerMulti.applyChildren ShiftScaleTransformer.transform
      (rs.map Prod.fst) bs = .ok (rs.map Prod.snd) ∧
    TransformerMulti.applyChildren ShiftScaleTransformer.inverse_transform
      (rs.map Prod.fst) (rs.map Prod.snd) = .ok bs := by
  intro cs
  induction cs with
  | nil =>
    intro bs rs h hlen
    cases bs with
    | cons b bs => simp at hlen
    | nil =>
      simp only [TransformerMulti.fitChildren, Except.ok.injEq] at h
      rw [← h]
      refine ⟨rfl, rfl, by simp, rfl, rfl⟩
  | cons c cs ih =>
    intro bs rs h hlen
    cases bs with
    | nil => simp at hlen
    | cons b bs =>
      unfold TransformerMulti.fitChildren at h
      split at h
      · simp at h
      · rename_i cy hcy
        split at h
        · simp at h
        · rename_i rest hrest
          simp only [Except.ok.injEq] at h
          rw [← h]
          obtain ⟨hd, hl, hinvAll, hacT, hacI⟩ :=
            ih bs rest hrest (by simpa using hlen)
          obtain ⟨t', y⟩ := cy
          obtain ⟨hinv, htr, hylen, hiv, hsd⟩ :=
            fit_transform_invertible c b t' y hcy
          refine ⟨?_, ?_, ?_, ?_, ?_⟩
          · simp [TransformerMulti.dimsOf, hsd, hd]
          · simp [hylen, hl]
          · intro c' hc'
            simp only [List.map_cons] at hc'
            rcases List.mem_cons.mp hc' with h' | h'
            · rw [h']; exact hinv
            · exact hinvAll c' h'
          · simp [TransformerMulti.applyChildren, htr, hacT]
          · simp [TransformerMulti.applyChildren, hiv, hacI]

theorem applyChildren_transform_spec : ∀ (cs : List ShiftScaleTransformer)
    (bs ys : List Mat), bs.length = cs.length →
    (∀ c ∈ cs, InvertibleFit c) →
    TransformerMulti.applyChildren ShiftScaleTransformer.transform cs bs
      = .ok ys →
    ys.map List.length = bs.map List.length ∧
    TransformerMulti.applyChildren ShiftScaleTransformer.inverse_transform
      cs ys = .ok bs := by
  intro cs
  induction cs with
  | nil =>
    intro bs ys hlen hinv h
    cases bs with
    | cons b bs => simp at hlen
    | nil =>
      simp only [TransformerMulti.applyChildren, Except.ok.injEq] at h
      rw [← h]
      exact ⟨rfl, rfl⟩
  | cons c cs ih =>
    intro bs ys hlen hinv h
    cases bs with
    | nil => simp at hlen
    | cons b bs =>
      unfold TransformerMulti.applyChildren at h
      split at h
      · simp at h
      · rename_i y hy
        split at h
        · simp at h
        · rename_i rest hrest
          simp only [Except.ok.injEq] at h
          rw [← h]
          obtain ⟨hylen, hyi⟩ := hinv c (List.mem_cons_self c cs) b y hy
          obtain ⟨hl, hacI⟩ := ih bs rest (by simpa using hlen)
            (fun c' hc' => hinv c' (List.mem_cons_of_mem c hc')) hrest
          refine ⟨by simp [hylen, hl], ?_⟩
          simp [TransformerMulti.applyChildren, hyi, hacI]

theorem TM_transform_inverse (tm : TransformerMulti)
    (hinv : ∀ c ∈ tm.transformers, InvertibleFit c)
    (X Y : Mat) (h : tm.transform X = .ok Y) :
    Y.length = X.length ∧ tm.inverse_transform Y = .ok X := by
  cases hds : TransformerMulti.dimsOf tm.transformers with
  | none => simp [TransformerMulti.transform, hds] at h
  | some ds =>
    simp only [TransformerMulti.transform, hds] at h
    by_cases hlen : X.length = ds.sum
    · rw [if_pos hlen] at h
      cases hac : TransformerMulti.applyChildren ShiftScaleTransformer.transform
          tm.transformers (splitByDims ds X) with
      | error e => rw [hac] at h; simp at h
      | ok ys =>
        rw [hac] at h
        simp only [Except.ok.injEq] at h
        rw [← h]
        have hb : (splitByDims ds X).length = tm.transformers.length := by
          rw [length_splitByDims, dimsOf_length _ _ hds]
        have hbl : (splitByDims ds X).map List.length = ds :=
          splitByDims_map_length ds X (le_of_eq hlen.symm)
        obtain ⟨hyl, hai⟩ := applyChildren_transform_spec tm.transformers
          (splitByDims ds X) ys hb hinv hac
        have hylen : ys.map List.length = ds := by rw [hyl, hbl]
        have hYlen : ys.flatten.length = ds.sum := by
          rw [List.length_flatten, hylen]
        constructor
        · rw [hYlen, hlen]
        · simp only [TransformerMulti.inverse_transform, hds]
          rw [if_pos hYlen, splitByDims_flatten ys ds hylen, hai]
          simp only [flatten_splitByDims ds X hlen.symm]
    · rw [if_neg hlen] at h
      simp at h

theorem TM_fit_spec (tm0 : TransformerMulti) (X : Mat)
    (tm : TransformerMulti) (Y : Mat)
    (h : TransformerMulti.fit_transform tm0 X = .ok (tm, Y)) :
    (∀ c ∈ tm.transformers, InvertibleFit c) ∧
    tm.transformers.length = tm0.transformers.length ∧
    TransformerMulti.dimsOf tm.transformers
      = some (List.replicate tm0.transformers.length
          (X.length / tm0.transformers.length)) ∧
    tm.transform X = .ok Y ∧ Y.length = X.length ∧
    tm.inverse_transform Y = .ok X ∧
    tm0.transformers.length ≠ 0 ∧ X.length % tm0.transformers.length = 0 := by
  simp only [TransformerMulti.fit_transform] at h
  split_ifs at h with hA hB
  case pos =>
    split at h
    · simp at h
    · rename_i rs hfc
      simp only [Except.ok.injEq, Prod.mk.injEq] at h
      obtain ⟨htm, hY⟩ := h
      have hm0 : tm0.transformers.length ≠ 0 := by
        intro hz
        exact hA (Or.inl hz)
      have hmd : tm0.transformers.length * (X.length / tm0.transformers.length)
          = X.length := Nat.mul_div_cancel' (Nat.dvd_of_mod_eq_zero hB)
      have hsum : (List.replicate tm0.transformers.length
          (X.length / tm0.transformers.length)).sum = X.length := by
        rw [List.sum_replicate, smul_eq_mul, hmd]
      have hbs_len : (splitByDims (List.replicate tm0.transformers.length
          (X.length / tm0.transformers.length)) X).length
          = tm0.transformers.length := by
        rw [length_splitByDims, List.length_replicate]
      have hbs_maplen : (splitByDims (List.replicate tm0.transformers.length
          (X.length / tm0.transformers.length)) X).map List.length
          = List.replicate tm0.transformers.length
            (X.length / tm0.transformers.length) :=
        splitByDims_map_length _ _ (le_of_eq hsum)
      obtain ⟨hdims, hsnd_len, hinvAll, hacT, hacI⟩ :=
        fitChildren_spec tm0.transformers _ rs hfc hbs_len
      rw [hbs_maplen] at hdims hsnd_len
      have htrs : tm.transformers = rs.map Prod.fst := by rw [← htm]
      have hinv : ∀ c ∈ tm.transformers, InvertibleFit c := by
        rw [htrs]; exact hinvAll
      have hlen : tm.transformers.length = tm0.transformers.length := by
        rw [htrs]
        have := dimsOf_length _ _ hdims
        simpa using this.symm
      have htr : tm.transform X = .ok Y := by
        simp only [TransformerMulti.transform, htrs, hdims, if_pos hsum.symm,
          hacT]
        simp only [hY]
      refine ⟨hinv, hlen, by rw [htrs]; exact hdims, htr, ?_, ?_, hm0, hB⟩
      · rw [← hY, List.length_flatten, hsnd_len, hsum]
      · exact (TM_transform_inverse tm hinv X Y htr).2

/-! ## Constant (degenerate) data -/

theorem matEntries_centerCols_const (c : ℚ) : ∀ X : Mat,
    (∀ y ∈ matEntries X, y = c) →
    ∀ z ∈ matEntries (centerCols (X.map listMean) X), z = 0 := by
  intro X
  induction X with
  | nil => intro _ z hz; simp [matEntries, centerCols] at hz
  | cons r rs ih =>
    intro h z hz
    simp only [List.map_cons, centerCols, List.zipWith_cons_cons, matEntries,
      List.flatten_cons, List.mem_append] at hz
    rcases hz with hz | hz
    · simp only [List.mem_map] at hz
      obtain ⟨x, hx, hxz⟩ := hz
      have hrc : ∀ y ∈ r, y = c := fun y hy => h y (by
        simp only [matEntries, List.flatten_cons, List.mem_append]
        exact Or.inl hy)
      have hrne : r ≠ [] := fun hr => by subst hr; cases hx
      rw [← hxz, hrc x hx, listMean_const c r hrne hrc, sub_self]
    · have hrest : ∀ y ∈ matEntries rs, y = c := fun y hy => h y (by
        simp only [matEntries, List.flatten_cons, List.mem_append]
        exact Or.inr hy)
      exact ih hrest z (by simpa [matEntries, centerCols] using hz)

theorem matEntries_centerCols_ne_nil : ∀ X : Mat, matEntries X ≠ [] →
    matEntries (centerCols (X.map listMean) X) ≠ [] := by
  intro X
  induction X with
  | nil => intro h; exact h
  | cons r rs ih =>
    intro h hcontra
    simp only [List.map_cons, centerCols, List.zipWith_cons_cons, matEntries,
      List.flatten_cons, List.append_eq_nil] at hcontra
    obtain ⟨h1, h2⟩ := hcontra
    have hr : r = [] := by simpa [List.map_eq_nil_iff] using h1
    have hrs : matEntries rs = [] := by
      by_contra hne
      exact ih hne (by simpa [matEntries, centerCols] using h2)
    apply h
    simp only [matEntries, List.flatten_cons, List.append_eq_nil]
    exact ⟨hr, hrs⟩

theorem fitScaling_const_degenerate (st : ℚ × ℚ) (hst : st.1 < st.2)
    (X : Mat) (c : ℚ) (hne : matEntries X ≠ [])
    (hc : ∀ y ∈ matEntries X, y = c) :
    fitScaling .minmax st X = .error .degenerateData ∧
    fitScaling .minmaxsym st X = .error .degenerateData ∧
    fitScaling .maxabssym st X = .error .degenerateData ∧
    fitScaling .standard st X = .error .degenerateData ∧
    (c = 0 → fitScaling .maxabs st X = .error .degenerateData) := by
  have hmn : matMin X = c := listMin_const c _ hne hc
  have hmx : matMax X = c := listMax_const c _ hne hc
  have hsub : matMax X - matMin X = 0 := by rw [hmn, hmx, sub_self]
  have hmean : matMean X = c := listMean_const c _ hne hc
  have hcent : ∀ z ∈ matEntries (mapEntries (fun x => x - matMean X) X),
      z = 0 := by
    intro z hz
    rw [matEntries_mapEntries] at hz
    simp only [List.mem_map] at hz
    obtain ⟨x, hx, hxz⟩ := hz
    rw [← hxz, hc x hx, hmean, sub_self]
  have hcent_ne : matEntries (mapEntries (fun x => x - matMean X) X) ≠ [] :=
    matEntries_ne_nil_mapEntries _ X hne
  have habs0 : matMaxAbs (mapEntries (fun x => x - matMean X) X) = 0 := by
    unfold matMaxAbs
    apply listMax_const 0
    · simpa [List.map_eq_nil_iff] using hcent_ne
    · intro y hy
      simp only [List.mem_map] at hy
      obtain ⟨z, hz, hzy⟩ := hy
      rw [← hzy, hcent z hz, abs_zero]
  have hvar0 : matMean
      (mapEntries (fun x => (x - matMean X) * (x - matMean X)) X) = 0 := by
    have hall : ∀ y ∈ matEntries
        (mapEntries (fun x => (x - matMean X) * (x - matMean X)) X),
        y = 0 := by
      intro y hy
      rw [matEntries_mapEntries] at hy
      simp only [List.mem_map] at hy
      obtain ⟨x, hx, hxy⟩ := hy
      rw [← hxy, hc x hx, hmean, sub_self, mul_zero]
    exact listMean_const 0 _ (matEntries_ne_nil_mapEntries _ X hne) hall
  refine ⟨?_, ?_, ?_, ?_, ?_⟩
  · simp [fitScaling, hst, hsub]
  · simp [fitScaling, hst, hsub]
  · simp [fitScaling, habs0]
  · simp [fitScaling, hvar0]
  · intro hc0
    have habs : matMaxAbs X = 0 := by
      unfold matMaxAbs
      apply listMax_const 0
      · simpa [List.map_eq_nil_iff] using hne
      · intro y hy
        simp only [List.mem_map] at hy
        obtain ⟨z, hz, hzy⟩ := hy
        rw [← hzy, hc z hz, hc0, abs_zero]
    simp [fitScaling, habs]

theorem fit_transform_error_false (st : ℚ × ℚ) (sk : ScalingKind) (X : Mat)
    (e : TransformerError) (h : fitScaling sk st X = .error e) :
    ShiftScaleTransformer.fit_transform ⟨false, some sk, st, none⟩ X
      = .error e := by
  simp [ShiftScaleTransformer.fit_transform, ShiftScaleTransformer.fitParams, h]

theorem fit_transform_error_true (st : ℚ × ℚ) (sk : ScalingKind) (X : Mat)
    (e : TransformerError)
    (h : fitScaling sk st (centerCols (X.map listMean) X) = .error e) :
    ShiftScaleTransformer.fit_transform ⟨true, some sk, st, none⟩ X
      = .error e := by
  simp [ShiftScaleTransformer.fit_transform, ShiftScaleTransformer.fitParams, h]

/-! ## Affine maps against extrema -/

theorem affine_min_commute (a b : ℚ) (ha : 0 < a) (p q : ℚ) :
    a * min p q + b = min (a * p + b) (a * q + b) := by
  rcases le_total p q with h | h
  · rw [min_eq_left h, min_eq_left (by nlinarith)]
  · rw [min_eq_right h, min_eq_right (by nlinarith)]

theorem affine_max_commute (a b : ℚ) (ha : 0 < a) (p q : ℚ) :
    a * max p q + b = max (a * p + b) (a * q + b) := by
  rcases le_total p q with h | h
  · rw [max_eq_right h, max_eq_right (by nlinarith)]
  · rw [max_eq_left h, max_eq_left (by nlinarith)]

/-! ## The claims -/

/-- Claim C1: round-trip — for every fitted transformer
(`ShiftScaleTransformer` or `TransformerMulti`, under any configuration the
model supports) and every state matrix with the fitted number of rows,
`inverse_transform` applied to the result of `transform` (or of
`fit_transform`) returns the input exactly; exact rational arithmetic stands
in for the floating-point tolerance. -/
theorem claim_C1_round_trip :
    (∀ (t0 : ShiftScaleTransformer) (X0 : Mat) (t : ShiftScaleTransformer)
        (Y0 : Mat), t0.fit_transform X0 = .ok (t, Y0) →
      t.inverse_transform Y0 = .ok X0 ∧
      ∀ X Y : Mat, t.transform X = .ok Y → t.inverse_transform Y = .ok X) ∧
    (∀ (tm0 : TransformerMulti) (X0 : Mat) (tm : TransformerMulti) (Y0 : Mat),
        tm0.fit_transform X0 = .ok (tm, Y0) →
      tm.inverse_transform Y0 = .ok X0 ∧
      ∀ X Y : Mat, tm.transform X = .ok Y → tm.inverse_transform Y = .ok X) := by
  constructor
  · intro t0 X0 t Y0 h
    obtain ⟨hinv, _, _, hiv0, _⟩ := fit_transform_invertible t0 X0 t Y0 h
    exact ⟨hiv0, fun X Y hXY => (hinv X Y hXY).2⟩
  · intro tm0 X0 tm Y0 h
    obtain ⟨hinv, _, _, _, _, hiv0, _, _⟩ := TM_fit_spec tm0 X0 tm Y0 h
    exact ⟨hiv0, fun X Y hXY => (TM_transform_inverse tm hinv X Y hXY).2⟩

/-- Witness for C1: a concrete centered/maxabs-scaled single-variable fit, a
concrete standard-scaled fit (variance 1, std 1), and a concrete
two-variable composite fit, all inverted exactly. -/
theorem claim_C1_round_trip_witness :
    ShiftScaleTransformer.inverse_transform
        ⟨true, some .maxabs, (0, 1), some ⟨1, [3], some (1/2, 0)⟩⟩
        [[-1, -(1/2), 0, 1/2, 1]] = .ok [[1, 2, 3, 4, 5]] ∧
    ShiftScaleTransformer.inverse_transform
        ⟨false, some .standard, (0, 1), some ⟨1, [], some (1, -2)⟩⟩
        [[-1, 1]] = .ok [[1, 3]] ∧
    TransformerMulti.inverse_transform
        ⟨[⟨false, none, (0, 1), some ⟨1, [], none⟩⟩,
          ⟨false, none, (0, 1), some ⟨1, [], none⟩⟩], ["a", "b"]⟩
        [[1], [2]] = .ok [[1], [2]] := by
  refine ⟨?_, ?_, ?_⟩
  · exact (claim_C1_round_trip.1 ⟨true, some .maxabs, (0, 1), none⟩
      [[1, 2, 3, 4, 5]] _ _ (by
        norm_num [ShiftScaleTransformer.fit_transform,
          ShiftScaleTransformer.fitParams, listMean, centerCols, applyFit,
          fitScaling, matMaxAbs, matEntries, listMax, affineMap])).1
  · exact (claim_C1_round_trip.1 ⟨false, some .standard, (0, 1), none⟩
      [[1, 3]] _ _ (by
        norm_num [ShiftScaleTransformer.fit_transform,
          ShiftScaleTransformer.fitParams, fitScaling, matMean, listMean,
          matEntries, mapEntries, ratSqrt_one, applyFit, affineMap])).1
  · exact (claim_C1_round_trip.2
      ⟨[⟨false, none, (0, 1), none⟩, ⟨false, none, (0, 1), none⟩], ["a", "b"]⟩
      [[1], [2]] _ _ (by
        have hab : ("a" : String) ≠ "b" := by decide
        norm_num [TransformerMulti.fit_transform, TransformerMulti.fitChildren,
          splitByDims, ShiftScaleTransformer.fit_transform,
          ShiftScaleTransformer.fitParams, applyFit, List.replicate, hab])).1

/-- Claim C2: the concrete scenario — on the 1×5 state matrix
`[[1,2,3,4,5]]`, fitting with centering computes `mean_ = [3]` and returns
`[[-2,-1,0,1,2]]`; with centering and maxabs scaling the learned max-abs
factor is 2 (so `scale_ = 1/2`, `shift_ = 0`) and the output is
`[[-1,-1/2,0,1/2,1]]`; `inverse_transform` of that output returns exactly
`[[1,2,3,4,5]]`. -/
theorem claim_C2_concrete_scenario :
    (ShiftScaleTransformer.fit_transform ⟨true, none, (0, 1), none⟩
        [[1, 2, 3, 4, 5]]
      = .ok (⟨true, none, (0, 1), some ⟨1, [3], none⟩⟩,
             [[-2, -1, 0, 1, 2]])) ∧
    (ShiftScaleTransformer.fit_transform ⟨true, some .maxabs, (0, 1), none⟩
        [[1, 2, 3, 4, 5]]
      = .ok (⟨true, some .maxabs, (0, 1), some ⟨1, [3], some (1/2, 0)⟩⟩,
             [[-1, -(1/2), 0, 1/2, 1]])) ∧
    (ShiftScaleTransformer.inverse_transform
        ⟨true, some .maxabs, (0, 1), some ⟨1, [3], some (1/2, 0)⟩⟩
        [[-1, -(1/2), 0, 1/2, 1]]
      = .ok [[1, 2, 3, 4, 5]]) := by
  refine ⟨?_, ?_, ?_⟩
  · norm_num [ShiftScaleTransformer.fit_transform,
      ShiftScaleTransformer.fitParams, listMean, centerCols, applyFit]
  · norm_num [ShiftScaleTransformer.fit_transform,
      ShiftScaleTransformer.fitParams, listMean, centerCols, applyFit,
      fitScaling, matMaxAbs, matEntries, listMax, affineMap]
  · norm_num [ShiftScaleTransformer.inverse_transform, applyInv, affineInv,
      uncenterCols]

/-- Claim C3: fitting with `scaling="minmax"` and `scale_to = (0,1)` on data
whose entries are not all equal learns
`scale = (target_max - target_min)/(max - min)` and
`shift = target_min - scale * min`, applies `y = scale * x + shift`, and the
output has every entry in `[0,1]` with the observed minimum mapped exactly
to `0` and the observed maximum mapped exactly to `1`. -/
theorem claim_C3_minmax_bounds (X : Mat) (hlt : matMin X < matMax X)
    (a b : ℚ) (ha : a = (1 - 0) / (matMax X - matMin X))
    (hb : b = 0 - a * matMin X) :
    ShiftScaleTransformer.fit_transform ⟨false, some .minmax, (0, 1), none⟩ X
      = .ok (⟨false, some .minmax, (0, 1), some ⟨X.length, [], some (a, b)⟩⟩,
             affineMap a b X) ∧
    (∀ y ∈ matEntries (affineMap a b X), 0 ≤ y ∧ y ≤ 1) ∧
    matMin (affineMap a b X) = 0 ∧ matMax (affineMap a b X) = 1 := by
  have hs : matMax X - matMin X ≠ 0 := sub_ne_zero.mpr (ne_of_gt hlt)
  have ha0 : 0 < a := by
    rw [ha]
    apply div_pos (by norm_num)
    exact sub_pos.mpr hlt
  have has : a * (matMax X - matMin X) = 1 := by
    rw [ha]
    field_simp
  have hne : matEntries X ≠ [] := by
    intro hnil
    rw [matMin, matMax, hnil] at hlt
    simp [listMin, listMax] at hlt
  refine ⟨?_, ?_, ?_, ?_⟩
  · subst ha hb
    simp [ShiftScaleTransformer.fit_transform, ShiftScaleTransformer.fitParams,
      fitScaling, hs, applyFit]
  · intro y hy
    rw [affineMap_eq_mapEntries, matEntries_mapEntries] at hy
    simp only [List.mem_map] at hy
    obtain ⟨x, hx, hxy⟩ := hy
    have h1 : matMin X ≤ x := listMin_le _ x hx
    have h2 : x ≤ matMax X := le_listMax _ x hx
    rw [← hxy, hb]
    constructor
    · nlinarith [mul_nonneg (le_of_lt ha0) (sub_nonneg.mpr h1)]
    · nlinarith [mul_nonneg (le_of_lt ha0) (sub_nonneg.mpr h2), has]
  · rw [matMin, affineMap_eq_mapEntries, matEntries_mapEntries,
      listMin_map_mono _ (fun p q => affine_min_commute a b ha0 p q) _ hne]
    rw [hb]
    show a * matMin X + (0 - a * matMin X) = 0
    ring
  · rw [matMax, affineMap_eq_mapEntries, matEntries_mapEntries,
      listMax_map_mono _ (fun p q => affine_max_commute a b ha0 p q) _ hne]
    rw [hb]
    show a * matMax X + (0 - a * matMin X) = 1
    nlinarith [has]

/-- Witness for C3: on `[[1,3]]` the learned parameters are `(1/2, -1/2)` and
the output `[[0,1]]` has minimum 0 and maximum 1. -/
theorem claim_C3_minmax_bounds_witness :
    ShiftScaleTransformer.fit_transform ⟨false, some .minmax, (0, 1), none⟩
        [[1, 3]]
      = .ok (⟨false, some .minmax, (0, 1), some ⟨1, [], some (1/2, -(1/2))⟩⟩,
             [[0, 1]]) ∧
    matMin [[0, 1]] = 0 ∧ matMax [[0, 1]] = 1 := by
  obtain ⟨h1, _, h3, h4⟩ := claim_C3_minmax_bounds [[1, 3]]
    (by norm_num [matMin, matMax, matEntries, listMin, listMax])
    (1/2) (-(1/2))
    (by norm_num [matMin, matMax, matEntries, listMin, listMax])
    (by norm_num [matMin, matMax, matEntries, listMin, listMax])
  norm_num [affineMap] at h1 h3 h4
  exact ⟨h1, h3, h4⟩

/-- Claim C4: degenerate data — for a state matrix whose entries are all
equal, fitting with any scaling policy whose denominator is then zero — the
observed range for `minmax`/`minmaxsym`, the standard deviation for
`standard`, the centered max-abs for `maxabssym`, and for `maxabs` the
max-abs once the constant is zero or centering first annihilates the data —
fails with the degenerate-data error instead of producing infinities. -/
theorem claim_C4_degenerate_data (cen : Bool) (st : ℚ × ℚ) (X : Mat) (c : ℚ)
    (hst : st.1 < st.2) (hne : matEntries X ≠ [])
    (hc : ∀ y ∈ matEntries X, y = c) :
    ShiftScaleTransformer.fit_transform ⟨cen, some .minmax, st, none⟩ X
      = .error .degenerateData ∧
    ShiftScaleTransformer.fit_transform ⟨cen, some .minmaxsym, st, none⟩ X
      = .error .degenerateData ∧
    ShiftScaleTransformer.fit_transform ⟨cen, some .maxabssym, st, none⟩ X
      = .error .degenerateData ∧
    ShiftScaleTransformer.fit_transform ⟨cen, some .standard, st, none⟩ X
      = .error .degenerateData ∧
    ((cen = true ∨ c = 0) →
      ShiftScaleTransformer.fit_transform ⟨cen, some .maxabs, st, none⟩ X
        = .error .degenerateData) := by
  cases cen with
  | false =>
    obtain ⟨h1, h2, h3, h5, h4⟩ := fitScaling_const_degenerate st hst X c hne hc
    refine ⟨fit_transform_error_false st _ X _ h1,
            fit_transform_error_false st _ X _ h2,
            fit_transform_error_false st _ X _ h3,
            fit_transform_error_false st _ X _ h5, ?_⟩
    intro hor
    rcases hor with hcase | hcase
    · cases hcase
    · exact fit_transform_error_false st _ X _ (h4 hcase)
  | true =>
    have hcent0 := matEntries_centerCols_const c X hc
    have hcne := matEntries_centerCols_ne_nil X hne
    obtain ⟨h1, h2, h3, h5, h4⟩ := fitScaling_const_degenerate st hst
      (centerCols (X.map listMean) X) 0 hcne hcent0
    exact ⟨fit_transform_error_true st _ X _ h1,
           fit_transform_error_true st _ X _ h2,
           fit_transform_error_true st _ X _ h3,
           fit_transform_error_true st _ X _ h5,
           fun _ => fit_transform_error_true st _ X _ (h4 rfl)⟩

/-- Witness for C4: the all-zero 2×2 matrix makes the minmax, standard and
maxabs fits all fail with the degenerate-data error. -/
theorem claim_C4_degenerate_data_witness :
    ShiftScaleTransformer.fit_transform ⟨false, some .minmax, (0, 1), none⟩
      [[0, 0], [0, 0]] = .error .degenerateData ∧
    ShiftScaleTransformer.fit_transform ⟨false, some .standard, (0, 1), none⟩
      [[0, 0], [0, 0]] = .error .degenerateData ∧
    ShiftScaleTransformer.fit_transform ⟨false, some .maxabs, (0, 1), none⟩
      [[0, 0], [0, 0]] = .error .degenerateData := by
  obtain ⟨h1, _, _, h5, h4⟩ := claim_C4_degenerate_data false (0, 1)
    [[0, 0], [0, 0]] 0 (by norm_num) (by simp [matEntries])
    (by
      intro y hy
      norm_num [matEntries] at hy
      exact hy)
  exact ⟨h1, h5, h4 (Or.inr rfl)⟩

/-- Claim C5: not fitted — every `transform`, `inverse_transform` or
`transform_ddts` call on a transformer on which `fit_transform` has not run
(for the composite: some child is unfitted) fails with the not-fitted error;
no such call returns a result. -/
theorem claim_C5_not_fitted :
    (∀ t : ShiftScaleTransformer, t.fitted = none → ∀ X : Mat,
      t.transform X = .error .notFitted ∧
      t.inverse_transform X = .error .notFitted ∧
      t.transform_ddts X = .error .notFitted) ∧
    (∀ tm : TransformerMulti,
      (∃ c ∈ tm.transformers, c.fitted = none) → ∀ X : Mat,
      tm.transform X = .error .notFitted ∧
      tm.inverse_transform X = .error .notFitted ∧
      tm.transform_ddts X = .error .notFitted) := by
  constructor
  · intro t ht X
    refine ⟨?_, ?_, ?_⟩ <;>
      simp [ShiftScaleTransformer.transform,
        ShiftScaleTransformer.inverse_transform,
        ShiftScaleTransformer.transform_ddts, ht]
  · intro tm hex X
    obtain ⟨c, hc, hcf⟩ := hex
    have hd : TransformerMulti.dimsOf tm.transformers = none :=
      dimsOf_eq_none tm.transformers c hc hcf
    refine ⟨?_, ?_, ?_⟩ <;>
      simp [TransformerMulti.transform, TransformerMulti.inverse_transform,
        TransformerMulti.transform_ddts, hd]

/-- Witness for C5: an unfitted single transformer and an unfitted composite
both reject `transform`. -/
theorem claim_C5_not_fitted_witness :
    (ShiftScaleTransformer.transform ⟨true, some .minmax, (0, 1), none⟩ [[1]]
      = .error .notFitted) ∧
    (TransformerMulti.transform ⟨[⟨false, none, (0, 1), none⟩], ["a"]⟩ [[1]]
      = .error .notFitted) :=
  ⟨(claim_C5_not_fitted.1 ⟨true, some .minmax, (0, 1), none⟩ rfl [[1]]).1,
   (claim_C5_not_fitted.2 ⟨[⟨false, none, (0, 1), none⟩], ["a"]⟩
      ⟨⟨false, none, (0, 1), none⟩, List.mem_singleton.mpr rfl, rfl⟩ [[1]]).1⟩

/-- Claim C6: fitting sets `state_dimension` to the row count of the fitted
data (and the pure operations never modify the fitted transformer value);
any later `transform`/`inverse_transform`/`transform_ddts` call whose input
row count differs fails with the dimension-mismatch error, and fitting a
`TransformerMulti` on a row count its implicit equal partition cannot divide
fails with the same mismatch error. -/
theorem claim_C6_dimension_immutable :
    (∀ (t0 : ShiftScaleTransformer) (X0 : Mat) (t : ShiftScaleTransformer)
        (Y0 : Mat), t0.fit_transform X0 = .ok (t, Y0) →
      t.state_dimension = some X0.length ∧
      ∀ X : Mat, X.length ≠ X0.length →
        t.transform X = .error .dimensionMismatch ∧
        t.inverse_transform X = .error .dimensionMismatch ∧
        t.transform_ddts X = .error .dimensionMismatch) ∧
    (∀ (tm0 : TransformerMulti) (X : Mat),
      tm0.transformers.length ≠ 0 →
      tm0.variable_names.length = tm0.transformers.length →
      tm0.variable_names.Nodup →
      X.length % tm0.transformers.length ≠ 0 →
      tm0.fit_transform X = .error .dimensionMismatch) := by
  constructor
  · intro t0 X0 t Y0 h
    obtain ⟨f, ht, hY, hdim, hmu, ha⟩ := fit_transform_ok_spec t0 X0 t Y0 h
    have hf : t.fitted = some f := by rw [ht]
    constructor
    · simp [ShiftScaleTransformer.state_dimension, hf, hdim]
    · intro X hX
      have hX' : X.length ≠ f.dim := by rw [hdim]; exact hX
      refine ⟨?_, ?_, ?_⟩ <;>
        simp [ShiftScaleTransformer.transform,
          ShiftScaleTransformer.inverse_transform,
          ShiftScaleTransformer.transform_ddts, hf, hX']
  · intro tm0 X hm hnames hnodup hmod
    simp [TransformerMulti.fit_transform, hmod]
    exact ⟨fun hnil => hm (by rw [hnil]; rfl), hnames, hnodup⟩

/-- Witness for C6: a transformer fitted on two rows reports dimension 2 and
rejects a one-row input; a two-variable composite rejects an odd row count. -/
theorem claim_C6_dimension_immutable_witness :
    ShiftScaleTransformer.state_dimension
        ⟨false, none, (0, 1), some ⟨2, [], none⟩⟩ = some 2 ∧
    ShiftScaleTransformer.transform ⟨false, none, (0, 1), some ⟨2, [], none⟩⟩
        [[1]] = .error .dimensionMismatch ∧
    TransformerMulti.fit_transform
        ⟨[⟨false, none, (0, 1), none⟩, ⟨false, none, (0, 1), none⟩],
         ["a", "b"]⟩ [[1]] = .error .dimensionMismatch := by
  have h1 := (claim_C6_dimension_immutable.1 ⟨false, none, (0, 1), none⟩
    [[1], [2]] ⟨false, none, (0, 1), some ⟨2, [], none⟩⟩ [[1], [2]] (by
      norm_num [ShiftScaleTransformer.fit_transform,
        ShiftScaleTransformer.fitParams, applyFit]))
  have hab : ("a" : String) ≠ "b" := by decide
  refine ⟨h1.1, (h1.2 [[1]] (by norm_num)).1, ?_⟩
  exact claim_C6_dimension_immutable.2
    ⟨[⟨false, none, (0, 1), none⟩, ⟨false, none, (0, 1), none⟩], ["a", "b"]⟩
    [[1]] (by norm_num) rfl (by simp [hab]) (by norm_num)

/-- Claim C7: derivative linearity — for a fitted `ShiftScaleTransformer`
and a derivative matrix of the fitted shape, `transform_ddts` multiplies the
data by the learned `scale_` factor only: with no scaling it is the
identity, and neither the learned `mean_` nor the learned `shift_` affects
the result. -/
theorem claim_C7_ddts_linear (t : ShiftScaleTransformer) (f : FitState)
    (hf : t.fitted = some f) (D : Mat) (hD : D.length = f.dim) :
    (∀ a b, f.scaleShift = some (a, b) →
      t.transform_ddts D = .ok (scaleRows a D)) ∧
    (f.scaleShift = none → t.transform_ddts D = .ok D) ∧
    (∀ mu' : List ℚ,
      ShiftScaleTransformer.transform_ddts
        ⟨t.centering, t.scaling, t.scale_to, some ⟨f.dim, mu', f.scaleShift⟩⟩
        D = t.transform_ddts D) ∧
    (∀ b' a b, f.scaleShift = some (a, b) →
      ShiftScaleTransformer.transform_ddts
        ⟨t.centering, t.scaling, t.scale_to,
          some ⟨f.dim, f.mean_, some (a, b')⟩⟩ D = t.transform_ddts D) := by
  refine ⟨?_, ?_, ?_, ?_⟩
  · intro a b hab
    simp [ShiftScaleTransformer.transform_ddts, hf, hD, hab]
  · intro hss
    simp [ShiftScaleTransformer.transform_ddts, hf, hD, hss]
  · intro mu'
    simp [ShiftScaleTransformer.transform_ddts, hf, hD]
  · intro b' a b hab
    simp [ShiftScaleTransformer.transform_ddts, hf, hD, hab]

/-- Witness for C7: a fitted centered maxabs transformer scales derivatives
by `1/2` and its result ignores the stored mean. -/
theorem claim_C7_ddts_linear_witness :
    ShiftScaleTransformer.transform_ddts
        ⟨true, some .maxabs, (0, 1), some ⟨1, [3], some (1/2, 0)⟩⟩ [[2, 4]]
      = .ok (scaleRows (1/2) [[2, 4]]) ∧
    ShiftScaleTransformer.transform_ddts
        ⟨true, some .maxabs, (0, 1), some ⟨1, [9], some (1/2, 0)⟩⟩ [[2, 4]]
      = ShiftScaleTransformer.transform_ddts
        ⟨true, some .maxabs, (0, 1), some ⟨1, [3], some (1/2, 0)⟩⟩
        [[2, 4]] := by
  obtain ⟨h1, _, h3, _⟩ := claim_C7_ddts_linear
    ⟨true, some .maxabs, (0, 1), some ⟨1, [3], some (1/2, 0)⟩⟩
    ⟨1, [3], some (1/2, 0)⟩ rfl [[2, 4]] (by norm_num)
  exact ⟨h1 (1/2) 0 rfl, h3 [9]⟩

/-- Claim C9: partition — after fitting, the row ranges owned by the
children of a `TransformerMulti` are contiguous equal blocks (the fitted
dimension list is `replicate m d`), they are non-overlapping and exhaustive
(each row index below the joint dimension lies in exactly one block), and
concatenating `get_var i X` over all children in order reconstructs any
array `X` with the joint row count exactly. -/
theorem claim_C9_partition (tm0 : TransformerMulti) (X0 : Mat)
    (tm : TransformerMulti) (Y0 : Mat)
    (h : TransformerMulti.fit_transform tm0 X0 = .ok (tm, Y0))
    (m d : Nat) (hm : m = tm.transformers.length)
    (hd : d = X0.length / tm0.transformers.length) :
    TransformerMulti.dimsOf tm.transformers = some (List.replicate m d) ∧
    (∀ X : Mat, X.length = X0.length →
      ((List.range m).map (fun i => tm.get_var i X)).flatten = X) ∧
    (∀ r, r < X0.length → ∃! i, i < m ∧ i * d ≤ r ∧ r < i * d + d) := by
  obtain ⟨_, hlen, hdims, _, _, _, hm0, hmod⟩ := TM_fit_spec tm0 X0 tm Y0 h
  have hdims' : TransformerMulti.dimsOf tm.transformers
      = some (List.replicate m d) := by
    rw [hdims, hm, hlen, hd]
  have hmd : m * d = X0.length := by
    rw [hm, hlen, hd]
    exact Nat.mul_div_cancel' (Nat.dvd_of_mod_eq_zero hmod)
  refine ⟨hdims', ?_, ?_⟩
  · intro X hX
    have hga : ∀ i, tm.get_var i X
        = (splitByDims (List.replicate m d) X).getD i [] := by
      intro i
      simp [TransformerMulti.get_var, hdims']
    have hsum : (List.replicate m d).sum = X.length := by
      rw [List.sum_replicate, smul_eq_mul, hmd, hX]
    have hl : (splitByDims (List.replicate m d) X).length = m := by
      rw [length_splitByDims, List.length_replicate]
    calc ((List.range m).map fun i => tm.get_var i X).flatten
        = ((List.range (splitByDims (List.replicate m d) X).length).map
            fun i => (splitByDims (List.replicate m d) X).getD i []).flatten := by
          rw [hl]
          simp only [hga]
      _ = X := by
          rw [range_map_getD ([] : Mat) (splitByDims (List.replicate m d) X)]
          exact flatten_splitByDims _ _ hsum
  · intro r hr
    have hrmd : r < m * d := by rw [hmd]; exact hr
    have hd0 : 0 < d := by
      rcases Nat.eq_zero_or_pos d with h0 | h0
      · subst h0; rw [Nat.mul_zero] at hmd; omega
      · exact h0
    refine ⟨r / d, ⟨?_, ?_, ?_⟩, ?_⟩
    · rw [Nat.div_lt_iff_lt_mul hd0]
      calc r < m * d := hrmd
        _ = m * d := rfl
    · exact Nat.div_mul_le_self r d
    · have h1 : d * (r / d) + r % d = r := Nat.div_add_mod r d
      have h2 : r % d < d := Nat.mod_lt r hd0
      have h3 : d * (r / d) = (r / d) * d := Nat.mul_comm d (r / d)
      linarith [h1, h2, h3]
    · intro y hy
      obtain ⟨hym, hy1, hy2⟩ := hy
      have hle : y ≤ r / d := (Nat.le_div_iff_mul_le hd0).mpr hy1
      have hlt : r / d < y + 1 := by
        rw [Nat.div_lt_iff_lt_mul hd0]
        calc r < y * d + d := hy2
          _ = (y + 1) * d := by ring
      omega

/-- Witness for C9: a two-variable composite fitted on four rows partitions
them as `[2, 2]` and `get_var` reconstructs the four rows. -/
theorem claim_C9_partition_witness :
    TransformerMulti.dimsOf
      [⟨false, none, (0, 1), some ⟨2, [], none⟩⟩,
       ⟨false, none, (0, 1), some ⟨2, [], none⟩⟩] = some (List.replicate 2 2) ∧
    ((List.range 2).map (fun i =>
        TransformerMulti.get_var
          ⟨[⟨false, none, (0, 1), some ⟨2, [], none⟩⟩,
            ⟨false, none, (0, 1), some ⟨2, [], none⟩⟩], ["a", "b"]⟩ i
          [[1], [2], [3], [4]])).flatten = [[1], [2], [3], [4]] := by
  obtain ⟨h1, h2, _⟩ := claim_C9_partition
    ⟨[⟨false, none, (0, 1), none⟩, ⟨false, none, (0, 1), none⟩], ["a", "b"]⟩
    [[1], [2], [3], [4]]
    ⟨[⟨false, none, (0, 1), some ⟨2, [], none⟩⟩,
      ⟨false, none, (0, 1), some ⟨2, [], none⟩⟩], ["a", "b"]⟩
    [[1], [2], [3], [4]]
    (by
      have hab : ("a" : String) ≠ "b" := by decide
      norm_num [TransformerMulti.fit_transform, TransformerMulti.fitChildren,
        splitByDims, ShiftScaleTransformer.fit_transform,
        ShiftScaleTransformer.fitParams, applyFit, List.replicate, hab])
    2 2 (by norm_num) (by norm_num)
  exact ⟨h1, h2 [[1], [2], [3], [4]] (by norm_num)⟩

/-- Claim C10: the module exposes the standalone `shift` and `scale`
functions next to the transformer classes; a successful
`scale X (lo, hi)` returns a triple whose first element is the scaled array
and whose remaining two elements are the learned affine `(scale, shift)`
parameters, with the affine map they determine applied to `X` reproducing
the first element, and the parameters given by the minmax formulas. -/
theorem claim_C10_scale_triple (X : Mat) (lo hi : ℚ) (Y : Mat) (a b : ℚ)
    (h : scale X (lo, hi) = .ok (Y, a, b)) :
    Y = affineMap a b X ∧
    a = (hi - lo) / (matMax X - matMin X) ∧ b = lo - a * matMin X := by
  unfold scale at h
  split at h
  · simp at h
  · rename_i ab hfs
    obtain ⟨a', b'⟩ := ab
    simp only [Except.ok.injEq, Prod.mk.injEq] at h
    obtain ⟨hY, ha, hb⟩ := h
    simp only [fitScaling] at hfs
    split_ifs at hfs with h1 h2
    simp only [Except.ok.injEq, Prod.mk.injEq] at hfs
    obtain ⟨hf1, hf2⟩ := hfs
    subst ha hb hf1 hf2
    exact ⟨hY.symm, rfl, rfl⟩

/-- Witness for C10: scaling `[[1,3]]` to `(0,1)` yields the triple
`([[0,1]], 1/2, -1/2)` and the affine map reproduces the scaled array. -/
theorem claim_C10_scale_triple_witness :
    [[(0 : ℚ), 1]] = affineMap (1/2) (-(1/2)) [[1, 3]] ∧
    (1/2 : ℚ) = (1 - 0) / (matMax [[1, 3]] - matMin [[1, 3]]) ∧
    (-(1/2) : ℚ) = 0 - (1/2) * matMin [[1, 3]] :=
  claim_C10_scale_triple [[1, 3]] 0 1 [[0, 1]] (1/2) (-(1/2)) (by
    norm_num [scale, fitScaling, matMin, matMax, matEntries, listMin,
      listMax, affineMap])

end OpInfPre
